import Mathlib

/-
Verification of the Merkle distribution engine of this repository.

The TypeScript generator (scripts/generate-merkle-tree.ts) and verifiers
(scripts/verify.ts, the verify-one script) and the Solidity contracts
(src/Merkle.sol, DeusdMerkleDistributor) are shallowly embedded here.

Modelling conventions:
- a byte is a `Nat` (with `< 256` side conditions where they matter);
- a 32-byte digest is a `List Nat` of length 32;
- `keccak256` is an abstract parameter `H : List Nat → List Nat`
  (all theorems hold for every hash function, so in particular for keccak);
- JavaScript `BigInt` is arbitrary-precision, so amounts and sums are `Nat`;
- an out-of-bounds JavaScript array access yields `undefined`, modelled by
  the placeholder `undefV` (the empty byte list, which no 32-byte digest equals);
- the `while` loop of `buildTree` is written as a fuel-based loop
  (`buildLayersGo`, fuel = number of leaves, which bounds the iteration count
  since every iteration at least halves the layer); the loop equation of the
  source is recovered exactly as the lemma `buildLayers_eq`;
- EVM `revert` discards all state changes: the embedded `claimCall` returns,
  next to the `Except` result, the post-transaction storage and the amount
  transferred, and every revert branch returns the unchanged storage and 0.
-/

namespace MerkleDist

/-- A byte (0..255). -/
abbrev Byte := Nat

/-- A digest: the byte sequence of a `bytes32` / a hex string of 32 bytes. -/
abbrev Digest := List Byte

/-- Abstract model of `keccak256 : bytes → bytes32`. -/
abbrev Hash := List Byte → Digest

/-- A digest is well formed when it has 32 bytes, all below 256. -/
def validDigest (d : Digest) : Prop := d.length = 32 ∧ ∀ b ∈ d, b < 256

instance (d : Digest) : Decidable (validDigest d) := by
  unfold validDigest; infer_instance

/-- Big-endian fixed-width byte encoding of a natural number
(`n` bytes; the low `8*n` bits of `v`). -/
def beBytes : Nat → Nat → List Byte
  | 0, _ => []
  | n + 1, v => beBytes n (v / 256) ++ [v % 256]

/-- Encoding `abi.encode(address, uint256)`: two 32-byte words, the address
left-padded with zero bytes to 32 bytes, the amount big-endian. -/
def abiEncode (account amount : Nat) : List Byte :=
  beBytes 32 account ++ beBytes 32 amount

/-- Comparison `Buffer.compare` on byte sequences: lexicographic, a strict prefix
compares below the longer sequence. -/
def bufCompare : List Byte → List Byte → Ordering
  | [], [] => .eq
  | [], _ :: _ => .lt
  | _ :: _, [] => .gt
  | a :: as, b :: bs =>
    if a < b then .lt else if b < a then .gt else bufCompare as bs

/-- Function `hashPair` of the TypeScript generator and verifiers:
`Buffer.compare(a, b) <= 0 ? keccak256(a ++ b) : keccak256(b ++ a)`. -/
def hashPair (H : Hash) (a b : Digest) : Digest :=
  match bufCompare a b with
  | .gt => H (b ++ a)
  | _ => H (a ++ b)

/-- Function `hashLeaf` of the generator:
`keccak256(keccak256(abi.encode(address, uint256)))`. -/
def hashLeaf (H : Hash) (address amount : Nat) : Digest :=
  H (H (abiEncode address amount))

/-- The JavaScript `undefined` obtained from an out-of-bounds array access,
as a byte-list placeholder (no 32-byte digest equals it). -/
def undefV : Digest := []

/-- JavaScript array indexing `l[i]` (yields `undefined` out of bounds). -/
def jsIndex (l : List Digest) (i : Nat) : Digest := l.getD i undefV

/-- One iteration of the layer loop of `buildTree`: hash adjacent pairs,
stepping by two; an unpaired trailing element is paired with itself. -/
def nextLayer (H : Hash) : List Digest → List Digest
  | [] => []
  | [a] => [hashPair H a a]
  | a :: b :: rest => hashPair H a b :: nextLayer H rest

/-- The layer loop of `buildTree` with explicit fuel (`fuel` = number of
leaves suffices: each iteration at least halves the layer length). -/
def buildLayersGo (H : Hash) : Nat → List Digest → List (List Digest)
  | 0, l => [l]
  | fuel + 1, l =>
    if l.length ≤ 1 then [l] else l :: buildLayersGo H fuel (nextLayer H l)

/-- Array `allLayers` of `buildTree`: the leaves followed by every layer the
`while (currentLayer.length > 1)` loop produces. -/
def buildLayers (H : Hash) (l : List Digest) : List (List Digest) :=
  buildLayersGo H l.length l

/-- The sibling pushed by the `getProof` loop of `buildTree` at one layer:
the pair index is `idx - 1` for a right child and `idx + 1` for a left
child; when the pair index falls outside the layer, `nodes[idx]` itself. -/
def siblingIn (nodes : List Digest) (idx : Nat) : Digest :=
  let pairIndex := if idx % 2 = 1 then idx - 1 else idx + 1
  if pairIndex < nodes.length then jsIndex nodes pairIndex else jsIndex nodes idx

/-- The `getProof` loop of `buildTree`: walk every layer except the last,
pushing the sibling and halving the index. -/
def proofFromLayers : List (List Digest) → Nat → List Digest
  | [], _ => []
  | [_], _ => []
  | nodes :: rest :: more, idx =>
    siblingIn nodes idx :: proofFromLayers (rest :: more) (idx / 2)

/-- The reserved all-zero 32-byte sentinel root for an empty entry list. -/
def zeroDigest : Digest := List.replicate 32 0

/-- Function `buildTree(leaves)`: the root and the proof function. An empty input
yields the zero sentinel and empty proofs; otherwise the root is element 0
of the last layer and proofs are produced by the `getProof` loop. -/
def buildTree (H : Hash) (leaves : List Digest) :
    Digest × (Nat → List Digest) :=
  if leaves.length = 0 then (zeroDigest, fun _ => [])
  else
    let layers := buildLayers H leaves
    (jsIndex (layers.getLastD []) 0, fun i => proofFromLayers layers i)

/-- The proof fold of the off-chain verifiers (`processProof` of the
verify-one script, and the loop of `verifyAddress` in scripts/verify.ts):
`computed = leaf; for (p of proof) computed = hashPair(computed, p)`. -/
def processProof (H : Hash) (leaf : Digest) (proof : List Digest) : Digest :=
  proof.foldl (hashPair H) leaf

/-- Off-chain verification: fold the proof from the leaf and compare with
the expected root (the source compares lowercased hex strings, i.e. the
byte sequences). -/
def verifyProof (H : Hash) (leaf : Digest) (proof : List Digest)
    (root : Digest) : Bool :=
  processProof H leaf proof == root

/-- Field `treeDepth` of the generator: `Math.ceil(Math.log2(leaves.length || 1))`.
On positive integers the real-valued `⌈log2 n⌉` is exactly `Nat.clog 2 n`. -/
def treeDepth (n : Nat) : Nat :=
  Nat.clog 2 (if n = 0 then 1 else n)

/-- The distribution entries: a beneficiary address and an amount in the
smallest token unit (JavaScript `BigInt`, arbitrary precision). -/
structure Entry where
  address : Nat
  amount : Nat
deriving DecidableEq

/-- The leaves, in entry order: `entries.map(e => hashLeaf(e.address, e.amount))`. -/
def leavesOf (H : Hash) (entries : List Entry) : List Digest :=
  entries.map (fun e => hashLeaf H e.address e.amount)

/-- Sum `totalAmount`: `entries.reduce((sum, e) => sum + BigInt(e.amount), 0n)`. -/
def totalAmount (entries : List Entry) : Nat :=
  entries.foldl (fun sum e => sum + e.amount) 0

/-- One persisted claim record of distribution.json. -/
structure ClaimRecord where
  index : Nat
  amount : Nat
  proof : List Digest
  signature : List Byte

/-- The distribution.json object built by the generator (the fields the
claims are about; `generatedAt` is a wall-clock timestamp and is omitted). -/
structure Distribution where
  merkleRoot : Digest
  tokenTotal : Nat
  totalEntries : Nat
  treeDepth : Nat
  claims : List (Nat × ClaimRecord)

/-- The `claims` object assembled by the generator's main routine, with the
per-entry signature produced by the external signing key modelled as a
parameter `sign`. -/
def mkDistribution (H : Hash) (sign : Nat → Nat → List Byte)
    (entries : List Entry) : Distribution :=
  let t := buildTree H (leavesOf H entries)
  { merkleRoot := t.1
    tokenTotal := totalAmount entries
    totalEntries := entries.length
    treeDepth := treeDepth entries.length
    claims := entries.enum.map (fun p =>
      (p.2.address, ⟨p.1, p.2.amount, t.2 p.1, sign p.2.address p.2.amount⟩)) }

/-! ### The Solidity side -/

/-- The `uint256` value of a byte sequence (big-endian), as used when two
`bytes32` words are compared in Solidity. -/
def beNat (l : List Byte) : Nat :=
  l.foldl (fun acc x => acc * 256 + x) 0

/-- Function `_hashPair` of OpenZeppelin MerkleProof:
`a < b ? keccak256(a ‖ b) : keccak256(b ‖ a)` with `bytes32` compared
as unsigned 256-bit integers. -/
def hashPairSol (H : Hash) (a b : Digest) : Digest :=
  if beNat a < beNat b then H (a ++ b) else H (b ++ a)

/-- Function `processProof` of OpenZeppelin MerkleProof. -/
def processProofSol (H : Hash) (proof : List Digest) (leaf : Digest) : Digest :=
  proof.foldl (hashPairSol H) leaf

/-- Function `MerkleProof.verify(proof, root, leaf)`. -/
def merkleVerify (H : Hash) (proof : List Digest) (root leaf : Digest) : Bool :=
  processProofSol H proof leaf == root

/-- The on-chain leaf: `keccak256(bytes.concat(keccak256(abi.encode(account, amount))))`. -/
def leafSol (H : Hash) (account amount : Nat) : Digest :=
  H (H (abiEncode account amount))

/-- Functions `Merkle.verify` and `DeusdMerkleDistributor.verify`: the read-only
on-chain verification against a stored root. -/
def verifyView (H : Hash) (root : Digest) (proof : List Digest)
    (account amount : Nat) : Bool :=
  merkleVerify H proof root (leafSol H account amount)

/-- The off-chain verification kernel of scripts/verify.ts
(`verifyAddress` after the claim-record lookup): leaf from the entry,
fold `hashPair` over the proof, compare with the distribution root. -/
def offchainVerify (H : Hash) (address amount : Nat) (proof : List Digest)
    (root : Digest) : Bool :=
  verifyProof H (hashLeaf H address amount) proof root

/-! ### The claim contract (DeusdMerkleDistributor) -/

/-- Packing `abi.encodePacked(onBehalfOf, amount, address(this), block.chainid)`:
tight packing, 20 bytes for each address and 32 for each uint256. -/
def packedClaimMsg (onBehalfOf amount thisAddr chainId : Nat) : List Byte :=
  beBytes 20 onBehalfOf ++ beBytes 32 amount ++ beBytes 20 thisAddr ++
    beBytes 32 chainId

/-- The text of the EIP-191 personal-message header after the 0x19 byte:
the string "Ethereum Signed Message:" then a newline then "32". -/
def ethHeaderText : String :=
  "Ethereum Signed Message:" ++ String.singleton (Char.ofNat 10) ++ "32"

/-- The EIP-191 personal-message header byte sequence. -/
def ethHeader : List Byte :=
  25 :: (ethHeaderText.toList.map Char.toNat)

/-- Function `MessageHashUtils.toEthSignedMessageHash(bytes32)`. -/
def toEthSignedHash (H : Hash) (msgHash : Digest) : Digest :=
  H (ethHeader ++ msgHash)

/-- The revert reasons of DeusdMerkleDistributor reachable from `claim`
(`RecoverFailed` stands for the revert raised inside `ECDSA.recover` on a
malformed signature or an unrecoverable curve point). -/
inductive ClaimError
  | InvalidAmount
  | AlreadyClaimed
  | EmptyProof
  | ClaimFinished
  | InvalidSignature
  | RecoverFailed
  | InvalidProof
deriving DecidableEq

/-- The contract storage read by `claim`. -/
structure DistributorState where
  merkleRoot : Digest
  claimEnd : Nat
  signerAddr : Nat
  hasClaimed : Nat → Bool

/-- Storage update `hasClaimed[sender] = true`. -/
def markClaimed (st : DistributorState) (sender : Nat) : DistributorState :=
  { st with hasClaimed := fun a => if a = sender then true else st.hasClaimed a }

/-- Function `_signatureCheck`: reject a zero-length signature, recompute the packed
message hash with the contract's own address and the executing chain id,
take the EIP-191 hash, recover the signer (`recover` abstracts
`ECDSA.recover`; `none` is its revert on a malformed signature or invalid
curve point) and compare with the stored signer. -/
def signatureCheck (H : Hash) (recover : Digest → List Byte → Option Nat)
    (signerAddr thisAddr chainId : Nat) (amount : Nat) (sig : List Byte)
    (onBehalfOf : Nat) : Except ClaimError Unit :=
  if sig.length = 0 then .error .InvalidSignature
  else
    let messageHash := H (packedClaimMsg onBehalfOf amount thisAddr chainId)
    match recover (toEthSignedHash H messageHash) sig with
    | none => .error .RecoverFailed
    | some s => if s = signerAddr then .ok () else .error .InvalidSignature

/-- Function `DeusdMerkleDistributor.claim(amount, merkleProof, signature)` as one
transaction: the result, the post-transaction storage and the amount
transferred. A revert (any `.error`) leaves storage unchanged and
transfers nothing. -/
def claimCall (H : Hash) (recover : Digest → List Byte → Option Nat)
    (st : DistributorState) (thisAddr sender timestamp chainId : Nat)
    (amount : Nat) (merkleProof : List Digest) (sig : List Byte) :
    Except ClaimError Unit × DistributorState × Nat :=
  if amount = 0 then (.error .InvalidAmount, st, 0)
  else if st.hasClaimed sender then (.error .AlreadyClaimed, st, 0)
  else if merkleProof.length = 0 then (.error .EmptyProof, st, 0)
  else if st.claimEnd ≤ timestamp then (.error .ClaimFinished, st, 0)
  else
    match signatureCheck H recover st.signerAddr thisAddr chainId amount sig sender with
    | .error e => (.error e, st, 0)
    | .ok _ =>
      if merkleVerify H merkleProof st.merkleRoot (leafSol H sender amount) then
        (.ok (), markClaimed st sender, amount)
      else (.error .InvalidProof, st, 0)

/-! ### Concrete instances used by witnesses and counterexamples -/

/-- A tiny concrete stand-in hash for evaluating the embedding on inputs. -/
def tinyHash : Hash := fun l => [l.sum % 256]

/-- A concrete hash whose outputs are well-formed 32-byte digests. -/
def boxHash : Hash := fun l =>
  List.replicate 32 ((l.foldl (fun a x => a * 31 + x) 7) % 256)

/-- A concrete well-formed digest. -/
def boxDigest : Digest := List.replicate 32 5

/-- A concrete storage for exercising `claimCall`. -/
def st0 : DistributorState :=
  { merkleRoot := zeroDigest
    claimEnd := 100
    signerAddr := 7
    hasClaimed := fun _ => false }

/-- A storage whose root matches the single-element proof `[[9]]` for the
claim of address 1 with amount 5 under `tinyHash`. -/
def st1 : DistributorState :=
  { merkleRoot := hashPairSol tinyHash (leafSol tinyHash 1 5) [9]
    claimEnd := 100
    signerAddr := 7
    hasClaimed := fun _ => false }

/-- A recovery function that always recovers address 7. -/
def recSome : Digest → List Byte → Option Nat := fun _ _ => some 7

/-- A recovery function that always fails. -/
def recNone : Digest → List Byte → Option Nat := fun _ _ => none

/-- Concrete entries for exercising the generator. -/
def wEntries : List Entry := [⟨1, 10⟩, ⟨2, 20⟩, ⟨3, 30⟩]

/-! ### Lemmas on the byte order and the pair hash -/

theorem bufCompare_self : ∀ a : List Byte, bufCompare a a = .eq
  | [] => rfl
  | _ :: as => by simp [bufCompare, bufCompare_self as]

theorem eq_of_bufCompare_eq : ∀ {a b : List Byte}, bufCompare a b = .eq → a = b
  | [], [], _ => rfl
  | [], _ :: _, h => by simp [bufCompare] at h
  | _ :: _, [], h => by simp [bufCompare] at h
  | a :: as, b :: bs, h => by
    by_cases hab : a < b
    · simp [bufCompare, hab] at h
    · by_cases hba : b < a
      · simp [bufCompare, hab, hba] at h
      · have hab' : a = b := Nat.le_antisymm (Nat.not_lt.mp hba) (Nat.not_lt.mp hab)
        simp only [bufCompare, if_neg hab, if_neg hba] at h
        rw [hab', eq_of_bufCompare_eq h]

theorem bufCompare_swap : ∀ a b : List Byte, bufCompare b a = (bufCompare a b).swap
  | [], [] => rfl
  | [], _ :: _ => rfl
  | _ :: _, [] => rfl
  | a :: as, b :: bs => by
    by_cases hab : a < b
    · simp [bufCompare, hab, Nat.lt_asymm hab, Ordering.swap]
    · by_cases hba : b < a
      · simp [bufCompare, hab, hba, Ordering.swap]
      · simp [bufCompare, hab, hba, bufCompare_swap as bs]

/-- The sorted-pair hash is commutative (helper behind claim C3). -/
theorem hashPair_comm (H : Hash) (a b : Digest) :
    hashPair H a b = hashPair H b a := by
  rcases h : bufCompare a b with hlt | heq | hgt
  · have h' : bufCompare b a = .gt := by rw [bufCompare_swap a b, h]; rfl
    simp [hashPair, h, h']
  · have h' : a = b := eq_of_bufCompare_eq h
    subst h'
    rfl
  · have h' : bufCompare b a = .lt := by rw [bufCompare_swap a b, h]; rfl
    simp [hashPair, h, h']

theorem beNat_go : ∀ (l : List Byte) (acc : Nat),
    l.foldl (fun acc x => acc * 256 + x) acc =
      acc * 256 ^ l.length + beNat l
  | [], acc => by simp [beNat]
  | x :: xs, acc => by
    have h1 := beNat_go xs (acc * 256 + x)
    have h2 := beNat_go xs (0 * 256 + x)
    simp only [List.foldl_cons, List.length_cons, beNat]
    rw [h1, h2]
    ring

theorem beNat_cons (x : Byte) (l : List Byte) :
    beNat (x :: l) = x * 256 ^ l.length + beNat l := by
  have h := beNat_go l (0 * 256 + x)
  simp only [beNat, List.foldl_cons] at h ⊢
  rw [h]
  ring

theorem beNat_lt_pow : ∀ l : List Byte, (∀ x ∈ l, x < 256) →
    beNat l < 256 ^ l.length
  | [], _ => by simp [beNat]
  | x :: xs, h => by
    have hx : x < 256 := h x (by simp)
    have hxs : beNat xs < 256 ^ xs.length :=
      beNat_lt_pow xs (fun y hy => h y (by simp [hy]))
    rw [beNat_cons]
    calc x * 256 ^ xs.length + beNat xs
        < x * 256 ^ xs.length + 256 ^ xs.length := Nat.add_lt_add_left hxs _
      _ = (x + 1) * 256 ^ xs.length := by ring
      _ ≤ 256 * 256 ^ xs.length := Nat.mul_le_mul_right _ hx
      _ = 256 ^ (x :: xs).length := by rw [List.length_cons, pow_succ]; ring

theorem beNat_lt_of_bufCompare_lt : ∀ {a b : List Byte},
    a.length = b.length → (∀ x ∈ a, x < 256) → (∀ x ∈ b, x < 256) →
    bufCompare a b = .lt → beNat a < beNat b
  | [], [], _, _, _, h => by simp [bufCompare] at h
  | [], _ :: _, hlen, _, _, _ => by simp at hlen
  | _ :: _, [], hlen, _, _, _ => by simp at hlen
  | a :: as, b :: bs, hlen, ha, hb, h => by
    have hlen' : as.length = bs.length := by simpa using hlen
    by_cases hab : a < b
    · rw [beNat_cons, beNat_cons, hlen']
      have h1 : beNat as < 256 ^ bs.length := by
        rw [← hlen']
        exact beNat_lt_pow as (fun y hy => ha y (by simp [hy]))
      calc a * 256 ^ bs.length + beNat as
          < a * 256 ^ bs.length + 256 ^ bs.length := Nat.add_lt_add_left h1 _
        _ = (a + 1) * 256 ^ bs.length := by ring
        _ ≤ b * 256 ^ bs.length := Nat.mul_le_mul_right _ hab
        _ ≤ b * 256 ^ bs.length + beNat bs := Nat.le_add_right _ _
    · by_cases hba : b < a
      · simp [bufCompare, hab, hba] at h
      · have hab' : a = b := Nat.le_antisymm (Nat.not_lt.mp hba) (Nat.not_lt.mp hab)
        simp only [bufCompare, if_neg hab, if_neg hba] at h
        have hrec := beNat_lt_of_bufCompare_lt hlen'
          (fun y hy => ha y (by simp [hy])) (fun y hy => hb y (by simp [hy])) h
        rw [beNat_cons, beNat_cons, hab', hlen']
        exact Nat.add_lt_add_left hrec _

/-- The TypeScript `hashPair` (compare `<= 0`) and the OpenZeppelin
`_hashPair` (strict `<` on the `uint256` values) agree on well-formed
digests of equal length. -/
theorem hashPair_eq_sol (H : Hash) (a b : Digest)
    (hlen : a.length = b.length)
    (ha : ∀ x ∈ a, x < 256) (hb : ∀ x ∈ b, x < 256) :
    hashPair H a b = hashPairSol H a b := by
  rcases h : bufCompare a b with hlt | heq | hgt
  · have := beNat_lt_of_bufCompare_lt hlen ha hb h
    simp [hashPair, hashPairSol, h, this]
  · have h' : a = b := eq_of_bufCompare_eq h
    subst h'
    simp [hashPair, hashPairSol, h]
  · have h' : bufCompare b a = .lt := by rw [bufCompare_swap a b, h]; rfl
    have := beNat_lt_of_bufCompare_lt hlen.symm hb ha h'
    simp [hashPair, hashPairSol, h, Nat.lt_asymm this, Nat.not_lt.mpr (Nat.le_of_lt this)]

theorem validDigest_append_ne : ∀ d : Digest, validDigest d → d ≠ undefV := by
  intro d hd
  intro h
  rw [h] at hd
  simp [validDigest, undefV] at hd

/-- The two proof folds agree step by step when every digest involved is
well formed and the hash always returns well-formed digests. -/
theorem fold_ts_eq_sol (H : Hash) (hH : ∀ bs, validDigest (H bs)) :
    ∀ (proof : List Digest) (acc : Digest), validDigest acc →
      (∀ d ∈ proof, validDigest d) →
      proof.foldl (hashPair H) acc = proof.foldl (hashPairSol H) acc
  | [], acc, _, _ => rfl
  | d :: ps, acc, hacc, hp => by
    have hd : validDigest d := hp d (by simp)
    have hstep : hashPair H acc d = hashPairSol H acc d :=
      hashPair_eq_sol H acc d (by rw [hacc.1, hd.1]) hacc.2 hd.2
    have hnext : validDigest (hashPair H acc d) := by
      unfold hashPair
      rcases bufCompare acc d <;> exact hH _
    simp only [List.foldl_cons, hstep]
    rw [← hstep]
    exact fold_ts_eq_sol H hH ps (hashPair H acc d) hnext
      (fun x hx => hp x (by simp [hx]))

/-! ### Lemmas on the tree builder -/

theorem nextLayer_len (H : Hash) : ∀ l : List Digest,
    (nextLayer H l).length = (l.length + 1) / 2
  | [] => rfl
  | [_] => by simp [nextLayer]
  | _ :: _ :: rest => by
    simp only [nextLayer, List.length_cons, nextLayer_len H rest]
    omega

/-- The fuel of `buildLayersGo` is irrelevant as long as it covers the
layer length (each iteration at least halves the length). -/
theorem buildLayersGo_congr (H : Hash) : ∀ (f1 : Nat) (l : List Digest) (f2 : Nat),
    l.length ≤ f1 → l.length ≤ f2 →
    buildLayersGo H f1 l = buildLayersGo H f2 l
  | 0, l, f2, h1, _ => by
    have hl : l.length = 0 := by omega
    cases f2 with
    | zero => rfl
    | succ g => simp [buildLayersGo, hl]
  | f1 + 1, l, 0, h1, h2 => by
    have hl : l.length = 0 := by omega
    simp [buildLayersGo, hl]
  | f1 + 1, l, f2 + 1, h1, h2 => by
    by_cases hs : l.length ≤ 1
    · simp [buildLayersGo, hs]
    · have hlen : (nextLayer H l).length = (l.length + 1) / 2 := nextLayer_len H l
      have hf1 : (nextLayer H l).length ≤ f1 := by omega
      have hf2 : (nextLayer H l).length ≤ f2 := by omega
      simp only [buildLayersGo, if_neg hs]
      rw [buildLayersGo_congr H f1 (nextLayer H l) f2 hf1 hf2]

/-- The loop equation of `buildTree`'s `while (currentLayer.length > 1)`. -/
theorem buildLayers_eq (H : Hash) (l : List Digest) :
    buildLayers H l =
      if l.length ≤ 1 then [l] else l :: buildLayers H (nextLayer H l) := by
  by_cases hs : l.length ≤ 1
  · rw [if_pos hs]
    unfold buildLayers
    cases hl : l.length with
    | zero => simp [buildLayersGo]
    | succ n => simp only [buildLayersGo, if_pos hs]
  · rw [if_neg hs]
    obtain ⟨n, hn⟩ : ∃ n, l.length = n + 1 := ⟨l.length - 1, by omega⟩
    unfold buildLayers
    rw [hn]
    simp only [buildLayersGo, if_neg hs]
    have hlen : (nextLayer H l).length = (l.length + 1) / 2 := nextLayer_len H l
    rw [buildLayersGo_congr H n (nextLayer H l) (nextLayer H l).length
      (by omega) (le_refl _)]

theorem buildLayers_ne_nil (H : Hash) (l : List Digest) :
    buildLayers H l ≠ [] := by
  rw [buildLayers_eq]
  by_cases hs : l.length ≤ 1 <;> simp [hs]

theorem jsIndex_cons_add_two (a b : Digest) (rest : List Digest) (k : Nat) :
    jsIndex (a :: b :: rest) (k + 2) = jsIndex rest k := by
  simp [jsIndex]

/-- The sibling recorded by `getProof` at one layer hashes with the node at
the index to the parent node of the next layer: the heart of proof
correctness, covering the odd-trailing self-pair rule on both sides. -/
theorem hashPair_sibling (H : Hash) : ∀ (l : List Digest) (i : Nat),
    i < l.length →
    hashPair H (jsIndex l i) (siblingIn l i) = jsIndex (nextLayer H l) (i / 2)
  | [], i, h => by simp at h
  | [a], i, h => by
    have hi : i = 0 := by simp at h; omega
    subst hi
    simp [siblingIn, jsIndex, nextLayer]
  | a :: b :: rest, 0, _ => by
    simp [siblingIn, jsIndex, nextLayer]
  | a :: b :: rest, 1, _ => by
    simp only [siblingIn, jsIndex, nextLayer]
    norm_num
    exact hashPair_comm H b a
  | a :: b :: rest, (i + 2), h => by
    have hi : i < rest.length := by simp at h; omega
    have hrec := hashPair_sibling H rest i hi
    have hsib : siblingIn (a :: b :: rest) (i + 2) = siblingIn rest i := by
      simp only [siblingIn, List.length_cons]
      by_cases hp : i % 2 = 1
      · have hmod : (i + 2) % 2 = 1 := by omega
        rw [if_pos hmod, if_pos hp]
        have hidx : i + 2 - 1 = (i - 1) + 2 := by omega
        rw [hidx]
        by_cases hc : i - 1 < rest.length
        · rw [if_pos (by omega), if_pos hc, jsIndex_cons_add_two]
        · rw [if_neg (by omega), if_neg hc, jsIndex_cons_add_two]
      · have hmod : ¬ (i + 2) % 2 = 1 := by omega
        rw [if_neg hmod, if_neg hp]
        have hidx : i + 2 + 1 = (i + 1) + 2 := by omega
        rw [hidx]
        by_cases hc : i + 1 < rest.length
        · rw [if_pos (by omega), if_pos hc, jsIndex_cons_add_two]
        · rw [if_neg (by omega), if_neg hc, jsIndex_cons_add_two]
    have hdiv : (i + 2) / 2 = i / 2 + 1 := by omega
    rw [jsIndex_cons_add_two, hsib, hrec, hdiv]
    simp [nextLayer, jsIndex]

theorem getLastD_cons_cons (x y : List Digest) (ms : List (List Digest)) :
    (x :: y :: ms).getLastD [] = (y :: ms).getLastD [] := by
  rw [List.getLastD_cons, List.getLastD_cons, List.getLastD_cons]

/-- Every proof generated from the layers recomputes element 0 of the last
layer (the root) from the node it was generated for. -/
theorem layers_correct (H : Hash) : ∀ (n : Nat) (l : List Digest),
    l.length = n → l ≠ [] → ∀ i, i < l.length →
    processProof H (jsIndex l i) (proofFromLayers (buildLayers H l) i) =
      jsIndex ((buildLayers H l).getLastD []) 0 := by
  intro n
  induction n using Nat.strong_induction_on with
  | _ n ih =>
    intro l hlen hne i hi
    by_cases hs : l.length ≤ 1
    · rw [buildLayers_eq, if_pos hs]
      have hi0 : i = 0 := by omega
      subst hi0
      simp [proofFromLayers, processProof, List.getLastD_cons]
    · rw [buildLayers_eq, if_neg hs]
      obtain ⟨m, ms, hm⟩ :=
        List.exists_cons_of_ne_nil (buildLayers_ne_nil H (nextLayer H l))
      have hnlen : (nextLayer H l).length = (l.length + 1) / 2 := nextLayer_len H l
      have hne' : nextLayer H l ≠ [] := by
        intro hx
        rw [hx] at hnlen
        simp at hnlen
        omega
      have hi' : i / 2 < (nextLayer H l).length := by omega
      have hrec := ih (nextLayer H l).length (by omega) (nextLayer H l) rfl
        hne' (i / 2) hi'
      rw [hm]
      simp only [proofFromLayers, processProof, List.foldl_cons]
      rw [hashPair_sibling H l i hi]
      rw [getLastD_cons_cons, ← hm]
      exact hrec

/-- Proof correctness at the `buildTree` interface: for a non-empty leaf
list and an in-range index, folding the generated proof from the leaf
yields the returned root. -/
theorem buildTree_ok (H : Hash) (leaves : List Digest) (hne : leaves ≠ [])
    (i : Nat) (hi : i < leaves.length) :
    processProof H (jsIndex leaves i) ((buildTree H leaves).2 i) =
      (buildTree H leaves).1 := by
  have h0 : ¬ leaves.length = 0 := by
    simp [List.length_eq_zero]
    exact hne
  unfold buildTree
  rw [if_neg h0]
  exact layers_correct H leaves.length leaves rfl hne i hi

theorem jsIndex_leavesOf (H : Hash) (entries : List Entry) (i : Nat)
    (hi : i < entries.length) :
    jsIndex (leavesOf H entries) i =
      hashLeaf H entries[i].address entries[i].amount := by
  simp [jsIndex, leavesOf, List.getD_eq_getElem?_getD, List.getElem?_map,
    List.getElem?_eq_getElem hi]

/-- The proof list produced by the `getProof` loop has one element per
non-root layer, whatever the index: there is no range check. -/
theorem proofFromLayers_len : ∀ (L : List (List Digest)) (i j : Nat),
    (proofFromLayers L i).length = (proofFromLayers L j).length
  | [], _, _ => rfl
  | [_], _, _ => rfl
  | _ :: rest :: more, i, j => by
    simp only [proofFromLayers, List.length_cons]
    rw [proofFromLayers_len (rest :: more) (i / 2) (j / 2)]

theorem foldl_add_amount : ∀ (l : List Entry) (acc : Nat),
    l.foldl (fun sum e => sum + e.amount) acc =
      acc + (l.map (fun e => e.amount)).sum
  | [], acc => by simp
  | e :: es, acc => by
    rw [List.foldl_cons, foldl_add_amount es (acc + e.amount)]
    simp only [List.map_cons, List.sum_cons]
    omega

/-! ### The claims -/

/-- C1: for every non-empty list of entries, building the tree from the
double-hashed leaves and then, for every entry at index `i`, verifying
with `verify(hashLeaf(e), proofFor(i), root)` — folding `hashPair` over
the proof starting from the leaf — recomputes exactly the root returned
by the builder, so the verification returns `true`. -/
theorem claim1_build_then_verify (H : Hash) (entries : List Entry)
    (hne : entries ≠ []) (i : Nat) (hi : i < entries.length) :
    verifyProof H (hashLeaf H entries[i].address entries[i].amount)
      ((buildTree H (leavesOf H entries)).2 i)
      ((buildTree H (leavesOf H entries)).1) = true := by
  have hlen : (leavesOf H entries).length = entries.length := by simp [leavesOf]
  have hne' : leavesOf H entries ≠ [] := by
    simp only [leavesOf, ne_eq, List.map_eq_nil_iff]
    exact hne
  have h := buildTree_ok H (leavesOf H entries) hne' i (by omega)
  rw [jsIndex_leavesOf H entries i hi] at h
  simp [verifyProof, h]

theorem claim1_build_then_verify_witness :
    (wEntries ≠ [] ∧ 2 < wEntries.length) ∧
    verifyProof tinyHash (hashLeaf tinyHash 3 30)
      ((buildTree tinyHash (leavesOf tinyHash wEntries)).2 2)
      ((buildTree tinyHash (leavesOf tinyHash wEntries)).1) = true := by
  refine ⟨⟨by decide, by decide⟩, ?_⟩
  have h := claim1_build_then_verify tinyHash wEntries (by decide) 2 (by decide)
  simpa [wEntries] using h

/-- C3: for every pair of 32-byte digests `a` and `b`,
`hashPair(a, b) = hashPair(b, a)`: the pair is sorted ascending as
unsigned byte sequences before concatenation and hashing, so
internal-node hashing is commutative. -/
theorem claim3_hashPair_commutative (H : Hash) (a b : Digest)
    (_ha : a.length = 32) (_hb : b.length = 32) :
    hashPair H a b = hashPair H b a :=
  hashPair_comm H a b

theorem claim3_hashPair_commutative_witness :
    (boxDigest.length = 32 ∧ zeroDigest.length = 32) ∧
    hashPair tinyHash boxDigest zeroDigest =
      hashPair tinyHash zeroDigest boxDigest :=
  ⟨⟨by decide, by decide⟩,
    claim3_hashPair_commutative tinyHash boxDigest zeroDigest
      (by decide) (by decide)⟩

/-- C7: for a single-entry set, `treeDepth = 0`, `proofFor(0) = []` and
`verify(leaf, [], root) = true`; moreover `treeDepth = 0` only when the
number of entries is at most 1. -/
theorem claim7_single_entry (H : Hash) (leaf : Digest) :
    treeDepth 1 = 0 ∧
    (buildTree H [leaf]).2 0 = [] ∧
    verifyProof H leaf ((buildTree H [leaf]).2 0)
      ((buildTree H [leaf]).1) = true ∧
    (∀ n : Nat, treeDepth n = 0 → n ≤ 1) := by
  have hd : treeDepth 1 = 0 := by simp [treeDepth, Nat.clog_one_right]
  have hp : (buildTree H [leaf]).2 0 = [] := rfl
  have hr : (buildTree H [leaf]).1 = leaf := rfl
  refine ⟨hd, hp, ?_, ?_⟩
  · rw [hp, hr]
    simp [verifyProof, processProof]
  · intro n h
    by_contra hgt
    push_neg at hgt
    have h2 : 2 ≤ n := hgt
    have hpos := Nat.clog_pos (show (1:ℕ) < 2 by norm_num) h2
    unfold treeDepth at h
    rw [if_neg (by omega)] at h
    omega

theorem claim7_single_entry_witness :
    1 ≤ 1 ∧ (buildTree tinyHash [boxDigest]).2 0 = [] :=
  ⟨(claim7_single_entry tinyHash boxDigest).2.2.2 1
      (by simp [treeDepth, Nat.clog_one_right]),
    (claim7_single_entry tinyHash boxDigest).2.1⟩

/-- C9: when the leaf list given to the tree builder is empty, the
returned root is the reserved all-zero 32-byte sentinel and every proof
query returns the empty list: no valid proof is derivable for any index. -/
theorem claim9_empty_input_sentinel (H : Hash) :
    (buildTree H []).1 = zeroDigest ∧ ∀ i, (buildTree H []).2 i = [] :=
  ⟨rfl, fun _ => rfl⟩

/-- C2: for every (beneficiary, amount) pair and every proof, the
off-chain verifier (scripts/verify.ts) and the on-chain verifier
(Merkle.sol / DeusdMerkleDistributor.verify) compute identical results:
both derive the leaf as `keccak256(keccak256(abi.encode(address, uint256)))`
and both fold the sorted-pair hash over the proof elements, so a proof
accepted off-line is accepted on-chain and vice versa. Stated for every
hash function returning well-formed 32-byte digests and every proof made
of well-formed digests. -/
theorem claim2_offchain_matches_onchain (H : Hash)
    (hH : ∀ bs, validDigest (H bs)) (address amount : Nat)
    (proof : List Digest) (root : Digest)
    (hp : ∀ d ∈ proof, validDigest d) :
    offchainVerify H address amount proof root =
      verifyView H root proof address amount := by
  unfold offchainVerify verifyView verifyProof merkleVerify processProof
    processProofSol
  rw [fold_ts_eq_sol H hH proof (hashLeaf H address amount)
    (by unfold hashLeaf; exact hH _) hp]
  rfl

theorem claim2_offchain_matches_onchain_witness :
    ((∀ bs, validDigest (boxHash bs)) ∧
      (∀ d ∈ [boxDigest], validDigest d)) ∧
    offchainVerify boxHash 3 5 [boxDigest] zeroDigest =
      verifyView boxHash zeroDigest [boxDigest] 3 5 := by
  have h1 : ∀ bs, validDigest (boxHash bs) := by
    intro bs
    refine ⟨by simp [boxHash], ?_⟩
    intro b hb
    simp only [boxHash] at hb
    rw [List.eq_of_mem_replicate hb]
    exact Nat.mod_lt _ (by norm_num)
  have h2 : ∀ d ∈ [boxDigest], validDigest d := by
    intro d hd
    simp only [List.mem_singleton] at hd
    subst hd
    decide
  exact ⟨⟨h1, h2⟩,
    claim2_offchain_matches_onchain boxHash h1 3 5 [boxDigest] zeroDigest h2⟩

/-- C4 (amended): the tokenTotal recorded in the distribution equals the
exact arithmetic sum of all entries' amounts (JavaScript BigInt is
arbitrary-precision, so no wraparound can occur); however no fail-fast
overflow check exists — generation succeeds even when the sum exceeds
2^256 - 1 (see the counterexample). -/
theorem claim4_token_total_exact (H : Hash) (sign : Nat → Nat → List Byte)
    (entries : List Entry) :
    (mkDistribution H sign entries).tokenTotal =
      (entries.map (fun e => e.amount)).sum := by
  show totalAmount entries = _
  unfold totalAmount
  rw [foldl_add_amount]
  omega

/-- C4 counterexample: with two entries of amount 2^255 each, generation
does not fail fast: it returns a distribution whose tokenTotal is 2^256,
which exceeds the 256-bit width 2^256 - 1. -/
theorem claim4_overflow_not_rejected :
    (mkDistribution tinyHash (fun _ _ => [])
        [⟨1, 2 ^ 255⟩, ⟨2, 2 ^ 255⟩]).tokenTotal = 2 ^ 256 ∧
      2 ^ 256 - 1 < 2 ^ 256 := by
  constructor
  · show totalAmount _ = _
    unfold totalAmount
    simp only [List.foldl_cons, List.foldl_nil]
    norm_num
  · norm_num

/-- C8 (amended): `getProof` performs no range check: for every index —
in particular any index ≥ N — it returns an ordinary proof-shaped list
with one element per non-root layer (out-of-bounds sibling reads yield
the JS-undefined placeholder), never an OutOfRangeIndex failure. -/
theorem claim8_no_range_check (H : Hash) (leaves : List Digest) (i j : Nat) :
    ((buildTree H leaves).2 i).length = ((buildTree H leaves).2 j).length := by
  unfold buildTree
  by_cases h : leaves.length = 0
  · simp [h]
  · simp only [if_neg h]
    exact proofFromLayers_len _ i j

/-- C8 counterexample: with three leaves (N = 3), requesting a proof for
index 4 ≥ N is not reported as a distinct OutOfRangeIndex failure — the
call returns the list [undefV, undefV], a malformed proof built from the
JS-undefined placeholder of the out-of-bounds sibling reads. -/
theorem claim8_out_of_range_returns_garbage :
    (buildTree tinyHash [[1], [2], [3]]).2 4 = [undefV, undefV] := by
  decide

/-- C5: every call to the on-chain `claim(amount, proof, signature)`
rejects a zero amount, rejects a beneficiary who has already claimed,
rejects after the claim-window end with the distinct reason ClaimFinished,
checks the signature with verifyingContract = the contract's own address
and chainId = the executing network's identifier, checks the Merkle proof
against the stored root, and only when every check passes does it
transfer funds and mark the beneficiary as claimed; on any rejection
(revert) the claimed-flag state is unchanged. -/
theorem claim5_claim_checks (H : Hash)
    (recover : Digest → List Byte → Option Nat) (st : DistributorState)
    (thisAddr sender timestamp chainId amount : Nat)
    (merkleProof : List Digest) (sig : List Byte) :
    (amount = 0 →
      claimCall H recover st thisAddr sender timestamp chainId amount merkleProof sig
        = (.error .InvalidAmount, st, 0)) ∧
    (amount ≠ 0 → st.hasClaimed sender = true →
      claimCall H recover st thisAddr sender timestamp chainId amount merkleProof sig
        = (.error .AlreadyClaimed, st, 0)) ∧
    (amount ≠ 0 → st.hasClaimed sender = false → merkleProof ≠ [] →
      st.claimEnd ≤ timestamp →
      claimCall H recover st thisAddr sender timestamp chainId amount merkleProof sig
        = (.error .ClaimFinished, st, 0)) ∧
    (∀ e, (claimCall H recover st thisAddr sender timestamp chainId amount merkleProof sig).1
        = .error e →
      (claimCall H recover st thisAddr sender timestamp chainId amount merkleProof sig).2
        = (st, 0)) ∧
    ((claimCall H recover st thisAddr sender timestamp chainId amount merkleProof sig).1
        = .ok () →
      amount ≠ 0 ∧ st.hasClaimed sender = false ∧ timestamp < st.claimEnd ∧
      signatureCheck H recover st.signerAddr thisAddr chainId amount sig sender
        = .ok () ∧
      merkleVerify H merkleProof st.merkleRoot (leafSol H sender amount) = true ∧
      claimCall H recover st thisAddr sender timestamp chainId amount merkleProof sig
        = (.ok (), markClaimed st sender, amount) ∧
      (markClaimed st sender).hasClaimed sender = true ∧
      (∀ a, a ≠ sender →
        (markClaimed st sender).hasClaimed a = st.hasClaimed a)) := by
  refine ⟨?_, ?_, ?_, ?_, ?_⟩
  · intro h
    simp [claimCall, h]
  · intro h0 h1
    simp [claimCall, h0, h1]
  · intro h0 h1 h2 h3
    simp [claimCall, h0, h1, h2, h3, List.length_eq_zero]
  · intro e h
    by_cases h0 : amount = 0
    · simp [claimCall, h0]
    by_cases h1 : st.hasClaimed sender
    · simp [claimCall, h0, h1]
    by_cases h2 : merkleProof.length = 0
    · simp [claimCall, h0, h1, h2]
    by_cases h3 : st.claimEnd ≤ timestamp
    · simp [claimCall, h0, h1, h2, h3]
    rcases hsig : signatureCheck H recover st.signerAddr thisAddr chainId amount sig sender
      with e' | u
    · simp [claimCall, h0, h1, h2, h3, hsig]
    by_cases hv : merkleVerify H merkleProof st.merkleRoot (leafSol H sender amount)
    · exfalso
      simp [claimCall, h0, h1, h2, h3, hsig, hv] at h
    · simp [claimCall, h0, h1, h2, h3, hsig, hv]
  · intro h
    by_cases h0 : amount = 0
    · simp [claimCall, h0] at h
    by_cases h1 : st.hasClaimed sender
    · simp [claimCall, h0, h1] at h
    by_cases h2 : merkleProof.length = 0
    · simp [claimCall, h0, h1, h2] at h
    by_cases h3 : st.claimEnd ≤ timestamp
    · simp [claimCall, h0, h1, h2, h3] at h
    rcases hsig : signatureCheck H recover st.signerAddr thisAddr chainId amount sig sender
      with e' | u
    · simp [claimCall, h0, h1, h2, h3, hsig] at h
    cases u
    by_cases hv : merkleVerify H merkleProof st.merkleRoot (leafSol H sender amount)
    · refine ⟨h0, by simpa using h1, by omega, rfl, by simpa using hv, ?_, ?_, ?_⟩
      · simp [claimCall, h0, h1, h2, h3, hsig, hv]
      · simp [markClaimed]
      · intro a ha
        simp [markClaimed, ha]
    · exfalso
      simp [claimCall, h0, h1, h2, h3, hsig, hv] at h

theorem claim5_claim_checks_witness :
    (claimCall tinyHash recSome st1 3 1 0 11 0 [[9]] [1]
        = (.error .InvalidAmount, st1, 0)) ∧
    (claimCall tinyHash recSome st1 3 1 0 11 5 [[9]] [1]
        = (.ok (), markClaimed st1 1, 5)) := by
  constructor
  · exact (claim5_claim_checks tinyHash recSome st1 3 1 0 11 0 [[9]] [1]).1 rfl
  · exact ((claim5_claim_checks tinyHash recSome st1 3 1 0 11 5 [[9]] [1]).2.2.2.2
      (by rfl)).2.2.2.2.2.1

/-- C6: every failure condition of `_signatureCheck` — zero-length
signature, recovery failure on a malformed signature or invalid curve
point, or recovered-signer mismatch — results in a rejection (a revert,
never a crash): the check is total over all signature byte strings, every
outcome being either success or a named error. -/
theorem claim6_signature_check_rejects (H : Hash)
    (recover : Digest → List Byte → Option Nat)
    (signerAddr thisAddr chainId amount : Nat) (sig : List Byte)
    (onBehalfOf : Nat) :
    (sig = [] →
      signatureCheck H recover signerAddr thisAddr chainId amount sig onBehalfOf
        = .error .InvalidSignature) ∧
    (sig ≠ [] →
      recover (toEthSignedHash H (H (packedClaimMsg onBehalfOf amount thisAddr chainId))) sig
        = none →
      signatureCheck H recover signerAddr thisAddr chainId amount sig onBehalfOf
        = .error .RecoverFailed) ∧
    (∀ s, sig ≠ [] →
      recover (toEthSignedHash H (H (packedClaimMsg onBehalfOf amount thisAddr chainId))) sig
        = some s →
      s ≠ signerAddr →
      signatureCheck H recover signerAddr thisAddr chainId amount sig onBehalfOf
        = .error .InvalidSignature) ∧
    ((signatureCheck H recover signerAddr thisAddr chainId amount sig onBehalfOf
        = .ok ()) ∨
      (∃ e, signatureCheck H recover signerAddr thisAddr chainId amount sig onBehalfOf
        = .error e)) := by
  refine ⟨?_, ?_, ?_, ?_⟩
  · intro h
    simp [signatureCheck, h]
  · intro h hr
    simp [signatureCheck, List.length_eq_zero, h, hr]
  · intro s h hr hs
    simp [signatureCheck, List.length_eq_zero, h, hr, hs]
  · by_cases h : sig.length = 0
    · right
      exact ⟨.InvalidSignature, by simp [signatureCheck, h]⟩
    rcases hr : recover (toEthSignedHash H (H (packedClaimMsg onBehalfOf amount thisAddr chainId))) sig
      with _ | s
    · right
      exact ⟨.RecoverFailed, by simp [signatureCheck, h, hr]⟩
    by_cases hs : s = signerAddr
    · left
      simp [signatureCheck, h, hr, hs]
    · right
      exact ⟨.InvalidSignature, by simp [signatureCheck, h, hr, hs]⟩

theorem claim6_signature_check_rejects_witness :
    (([] : List Byte) = [] ∧ ([1] : List Byte) ≠ [] ∧
      recNone (toEthSignedHash tinyHash (tinyHash (packedClaimMsg 1 5 3 11))) [1] = none) ∧
    signatureCheck tinyHash recNone 7 3 11 5 [] 1 = .error .InvalidSignature ∧
    signatureCheck tinyHash recNone 7 3 11 5 [1] 1 = .error .RecoverFailed :=
  ⟨⟨rfl, by decide, rfl⟩,
    (claim6_signature_check_rejects tinyHash recNone 7 3 11 5 [] 1).1 rfl,
    (claim6_signature_check_rejects tinyHash recNone 7 3 11 5 [1] 1).2.1
      (by decide) rfl⟩

/-- C10 (implicit): every on-chain `claim` call with an empty proof array
reverts — when the amount and replay checks pass, precisely with
EmptyProof, before any cryptographic check (the result does not depend on
the signature, the recovery function or the stored root) — so for a
single-entry distribution, whose only proof is the empty list, no
beneficiary can ever claim on-chain, even though the read-only `verify`
accepts (leaf, [], root) for that distribution. -/
theorem claim10_empty_proof_blocks_claim (H : Hash)
    (recover : Digest → List Byte → Option Nat) (st : DistributorState)
    (thisAddr sender timestamp chainId amount : Nat) (sig : List Byte) :
    ((claimCall H recover st thisAddr sender timestamp chainId amount [] sig).1
        ≠ .ok ()) ∧
    (amount ≠ 0 → st.hasClaimed sender = false →
      claimCall H recover st thisAddr sender timestamp chainId amount [] sig
        = (.error .EmptyProof, st, 0)) ∧
    (∀ account amt : Nat,
      verifyView H ((buildTree H [leafSol H account amt]).1) [] account amt
        = true) := by
  refine ⟨?_, ?_, ?_⟩
  · by_cases h0 : amount = 0
    · simp [claimCall, h0]
    by_cases h1 : st.hasClaimed sender
    · simp [claimCall, h0, h1]
    · simp [claimCall, h0, h1]
  · intro h0 h1
    simp [claimCall, h0, h1]
  · intro account amt
    have hroot : (buildTree H [leafSol H account amt]).1 = leafSol H account amt := rfl
    simp [verifyView, merkleVerify, processProofSol, hroot]

theorem claim10_empty_proof_blocks_claim_witness :
    (5 ≠ 0 ∧ st0.hasClaimed 1 = false) ∧
    claimCall tinyHash recSome st0 3 1 0 11 5 [] [1]
      = (.error .EmptyProof, st0, 0) :=
  ⟨⟨by decide, rfl⟩,
    (claim10_empty_proof_blocks_claim tinyHash recSome st0 3 1 0 11 5 [1]).2.1
      (by decide) rfl⟩

end MerkleDist
